import Mathlib

/-!
Verification of the RSA core of the rsa-aes-hybrid repository.

The repository ships a single translation unit under `src/` (`src/main.cpp`),
which drives the hybrid workflow: AES-encrypt a message, RSA-encrypt the AES
key, then reverse both.  The RSA engine itself (`rsa.cpp` / `rsa_util.cpp`,
declared through `rsa.h` / `rsa_util.h`) is not part of the sources available
here, so the arithmetic, padding, and key-persistence layers are modelled
from the specification, while `main` is embedded directly from
`src/main.cpp`.

All machine integers (`uint64_t` in the C++ sources) are modelled as `Nat`
with explicit `2 ^ 64` bounds where the width matters.
-/

/-- Error taxonomy of the spec (§7): domain errors, oversized payloads,
malformed padding and key-file failures. -/
inductive RSAError where
  | DomainError
  | PayloadTooLarge
  | MalformedPadding
  | KeyFileNotFound
  | KeyFormatError
deriving DecidableEq, Repr

/-- Modelled from the spec: the iterative add-and-double inner loop of
`mulmod` (§4.1, "an iterative add-and-double technique to avoid silently
wrapping"); the original `rsa_util.cpp` is absent from `src/`.  `fuel` is the
bit width of the fixed-width integers (64 for `uint64_t`); every intermediate
stays below the modulus, which is the point of the technique. -/
def mulmodAux : Nat → Nat → Nat → Nat → Nat → Nat
  | 0, _, _, _, acc => acc
  | fuel + 1, a, b, n, acc =>
      if b = 0 then acc
      else
        mulmodAux fuel ((a + a) % n) (b / 2) n
          (if b % 2 = 1 then (acc + a) % n else acc)

/-- Modelled from the spec: `mulmod(a, b, n)` computes `(a * b) mod n`
without intermediate overflow (§4.1); the original `rsa_util.cpp` is absent
from `src/`.  The first operand is reduced on entry, and 64 doubling rounds
cover every 64-bit second operand. -/
def mulmod (a b n : Nat) : Nat :=
  mulmodAux 64 (a % n) b n 0

/-- Modelled from the spec: the square-and-multiply inner loop of `powmod`
(§4.1, "repeatedly squares `base` modulo `n` while consuming the exponent's
bits, multiplying into the accumulator when a bit is set"); the original
`rsa_util.cpp` is absent from `src/`. -/
def powmodAux : Nat → Nat → Nat → Nat → Nat → Nat
  | 0, _, _, _, acc => acc
  | fuel + 1, base, e, n, acc =>
      if e = 0 then acc
      else
        powmodAux fuel (mulmod base base n) (e / 2) n
          (if e % 2 = 1 then mulmod acc base n else acc)

/-- Modelled from the spec: `powmod(base, exponent, n)` is modular
exponentiation via square-and-multiply, each step a `mulmod` (§4.1); the
original `rsa_util.cpp` is absent from `src/`. -/
def powmod (base e n : Nat) : Nat :=
  powmodAux 64 (base % n) e n (1 % n)

/-- Big-endian byte-sequence value: the integer a byte list denotes.  Bytes
are `Nat`s below 256. -/
def bytesToNat : List Nat → Nat
  | [] => 0
  | b :: bs => b * 256 ^ bs.length + bytesToNat bs

/-- Big-endian decomposition of an integer into exactly `cap` bytes
(most-significant first), the inverse of `bytesToNat` on `cap`-byte lists. -/
def natToBytes : Nat → Nat → List Nat
  | 0, _ => []
  | cap + 1, m => natToBytes cap (m / 256) ++ [m % 256]

/-- Modelled from the spec: the scan over the pad region during `decode`
(§4.2, "a pad region, a separator, then the payload"); the original padding
code is absent from `src/`.  Skips nonzero pad bytes, returns everything
after the first zero separator, and fails when no separator exists. -/
def stripPad : List Nat → Option (List Nat)
  | [] => none
  | b :: rest => if b = 0 then some rest else stripPad rest

/-- Modelled from the spec: `encode(payload, block_capacity)` (§4.2,
"conceptually PKCS#1-style: a fixed leading marker byte, a pad region, a
separator, then the payload", with fixed-constant pad length per the §9 open
question); the original padding code is absent from `src/`.  The block is the
integer denoted by `00 02 FF … FF 00 payload`, sized to exactly `cap` bytes;
fails with `PayloadTooLarge` when the payload plus the three bytes of
overhead exceed the capacity. -/
def encode (payload : List Nat) (cap : Nat) : Except RSAError Nat :=
  if payload.length + 3 ≤ cap then
    Except.ok (bytesToNat
      (0 :: 2 :: (List.replicate (cap - (payload.length + 3)) 255
        ++ 0 :: payload)))
  else Except.error RSAError.PayloadTooLarge

/-- Modelled from the spec: `decode(block)` (§4.2, "inverse operation; fails
with `MalformedPadding` if the expected marker/separator structure is
absent"); the original padding code is absent from `src/`. -/
def decode (cap block : Nat) : Except RSAError (List Nat) :=
  match natToBytes cap block with
  | b0 :: b1 :: rest =>
    if b0 = 0 ∧ b1 = 2 then
      match stripPad rest with
      | some payload => Except.ok payload
      | none => Except.error RSAError.MalformedPadding
    else Except.error RSAError.MalformedPadding
  | _ => Except.error RSAError.MalformedPadding

/-- Helper for `modCapacity`: the largest `k` among `0 … bound` with
`256 ^ k ≤ n`. -/
def capAux : Nat → Nat → Nat
  | 0, _ => 0
  | k + 1, n => if 256 ^ (k + 1) ≤ n then k + 1 else capAux k n

/-- Modelled from the spec: the number of bytes a padded block may occupy so
that it stays below the modulus (§4.2, "what the modulus can represent";
§4.4, "chunks sized to fit the modulus after padding"), capped at the eight
bytes of a `uint64_t` modulus. -/
def modCapacity (n : Nat) : Nat :=
  capAux 8 n

/-- Result of one `rsa_encrypt` call: the `Except` outcome, the number of
modular exponentiations performed, and the ciphertext file contents written
(`none` when no file was produced). -/
structure EncryptOutcome where
  result : Except RSAError (List Nat)
  powmodCalls : Nat
  file : Option (List Nat)

/-- Modelled from the spec: `encrypt(public_key, payload)` (§4.4) — pad the
payload into a block sized by the modulus, exponentiate with the public
exponent, persist the resulting sequence to the ciphertext file; errors from
the padding layer propagate before any exponentiation; the original
`rsa.cpp` (`RSAcrypt::rsa_encrypt`) is absent from `src/`. -/
def rsa_encrypt (e n : Nat) (payload : List Nat) : EncryptOutcome :=
  match encode payload (modCapacity n) with
  | Except.error err => ⟨Except.error err, 0, none⟩
  | Except.ok blk =>
      let c := powmod blk e n
      ⟨Except.ok [c], 1, some [c]⟩

/-- Modelled from the spec: `decrypt(private_key, ciphertext)` (§4.4) — for
each block, exponentiate with the private exponent, decode, and concatenate
in order; `MalformedPadding` propagates; the original `rsa.cpp`
(`RSAcrypt::rsa_decrypt`) is absent from `src/`. -/
def rsa_decrypt (d n : Nat) : List Nat → Except RSAError (List Nat)
  | [] => Except.ok []
  | c :: cs =>
    match decode (modCapacity n) (powmod c d n) with
    | Except.error err => Except.error err
    | Except.ok p =>
      match rsa_decrypt d n cs with
      | Except.error err => Except.error err
      | Except.ok ps => Except.ok (p ++ ps)

/-- Little-endian decimal digits of `m`; `fuel` bounds the digit count
(64 digits cover every value below `10 ^ 64`, hence every `uint64_t`). -/
def decDigitsAux : Nat → Nat → List Nat
  | 0, _ => []
  | fuel + 1, m => if m = 0 then [] else m % 10 :: decDigitsAux fuel (m / 10)

/-- Numeric value of a little-endian decimal digit list. -/
def ofDigitsLE : List Nat → Nat
  | [] => 0
  | d :: ds => d + 10 * ofDigitsLE ds

/-- The ASCII character of the decimal digit `d`. -/
def digitChar (d : Nat) : Char :=
  Char.ofNat (48 + d)

/-- Decimal rendering of `m`, most-significant digit first. -/
def natToChars (m : Nat) : List Char :=
  if m = 0 then ['0'] else ((decDigitsAux 64 m).reverse).map digitChar

/-- Parse one decimal character; fails on anything outside `'0' … '9'`. -/
def parseDigit (c : Char) : Option Nat :=
  if 48 ≤ c.toNat ∧ c.toNat ≤ 57 then some (c.toNat - 48) else none

/-- Accumulating decimal parse, most-significant digit first. -/
def parseNatAux : List Char → Nat → Option Nat
  | [], acc => some acc
  | c :: cs, acc =>
    match parseDigit c with
    | some d => parseNatAux cs (10 * acc + d)
    | none => none

/-- Parse a nonempty all-decimal character list. -/
def parseNatChars (cs : List Char) : Option Nat :=
  if cs.isEmpty then none else parseNatAux cs 0

/-- Split a character list at its first newline: the line before it and the
remainder after it. -/
def splitNl : List Char → Option (List Char × List Char)
  | [] => none
  | c :: cs =>
    if c = '\n' then some ([], cs)
    else
      match splitNl cs with
      | some (l, r) => some (c :: l, r)
      | none => none

/-- Modelled from the spec: `write_key(path, modulus, exponent)` (§4.3, "a
textual, reversible encoding of the two integers"); the original key
persistence code is absent from `src/`.  The result is the text written to
the key file: the two integers in decimal, each on a newline-terminated
line; the path is abstracted away, the file system being out of core
scope. -/
def writeKeyContent (n e : Nat) : List Char :=
  natToChars n ++ '\n' :: (natToChars e ++ ['\n'])

/-- Modelled from the spec: `read_key(path)` (§4.3, "parses a persisted key
file; fails with `KeyFileNotFound` or `KeyFormatError` on missing/malformed
input"); the original key persistence code is absent from `src/`.  Takes the
key-file text and recovers the `(modulus, exponent)` pair. -/
def readKeyContent (cs : List Char) : Except RSAError (Nat × Nat) :=
  match splitNl cs with
  | none => Except.error RSAError.KeyFormatError
  | some (l1, rest) =>
    match splitNl rest with
    | none => Except.error RSAError.KeyFormatError
    | some (l2, rest2) =>
      match parseNatChars l1, parseNatChars l2 with
      | some n, some e =>
        if rest2.isEmpty then Except.ok (n, e)
        else Except.error RSAError.KeyFormatError
      | _, _ => Except.error RSAError.KeyFormatError

/-- One externally visible I/O action of `main` (src/main.cpp): a file write
with its contents, a file read, or a log line. -/
inductive Event where
  | writeFile (path : String) (data : List Nat)
  | readFile (path : String)
  | log (msg : String)
deriving DecidableEq, Repr

/-- `aes_ciphertext_path` of src/main.cpp line 68. -/
def aesCtPath : String := "ciphertext/msg_enc.aes"

/-- `pubKey_path` of src/main.cpp line 79. -/
def pubKeyPath : String := "keys/pubKey.pem"

/-- `privKey_path` of src/main.cpp line 80. -/
def privKeyPath : String := "keys/privKey.pem"

/-- `rsa_ciphertext_path` of src/main.cpp line 81. -/
def rsaCtPath : String := "ciphertext/key_enc.bin"

/-- Destination of the decrypted message, src/main.cpp line 122. -/
def decryptedPath : String := "test/decrypted.txt"

/-- The three key variables of src/main.cpp line 84:
`uint64_t modulus, k_pub, k_priv;`. -/
structure KeyVars where
  modulus : Nat
  k_pub : Nat
  k_priv : Nat

/-- Embedded from src/main.cpp lines 85-86:
`readKey(pubKey_path, modulus, k_pub); readKey(privKey_path, modulus, k_priv);`
Both calls store into the same `modulus` variable, so the second overwrites
the value the first parsed.  Each key file is modelled by the
`(modulus, exponent)` pair `readKey` parses out of it (`readKey` itself is
declared in `rsa_util.h`, whose implementation is absent from `src/`). -/
def loadKeys (pubFile privFile : Nat × Nat) : KeyVars :=
  let m1 := pubFile.fst
  let e1 := pubFile.snd
  let m2 := privFile.fst
  let d1 := privFile.snd
  ⟨m2, e1, d1⟩

/-- Observable outcome of one run of `main`: the I/O trace, the exit status
(`none` when the run aborts on an engine error), the `(exponent, modulus)`
argument pairs handed to `rsa_encrypt` and `rsa_decrypt` (`none` when the
call was never reached), the ciphertext vector handed to `rsa_decrypt`, and
the final decrypted byte string. -/
structure MainRun where
  trace : List Event
  exit : Option Nat
  encArgs : Option (Nat × Nat)
  decArgs : Option (Nat × Nat)
  rsaDecryptInput : Option (List Nat)
  decryptedOut : Option (List Nat)

/-- The moduli handed to the RSA engine calls during a run of `main`. -/
def MainRun.callModuli (r : MainRun) : List Nat :=
  (match r.encArgs with
   | some a => [a.snd]
   | none => [])
  ++ (match r.decArgs with
      | some a => [a.snd]
      | none => [])

/-- Embedded from src/main.cpp lines 61-132 (the encryption and decryption
phases).  The AES collaborators are out of core scope (§1), so they are
abstracted: `aesCt`/`aesIv` stand for the outputs of `aes_encrypt` (line 71,
which also writes them to `aes_ciphertext_path`), and `aesDec` computes
`aes_decrypt` (line 116) from the recovered key, the IV and the AES
ciphertext.  The spec-modelled `rsa_encrypt` / `rsa_decrypt` stand in for the
absent `rsa.cpp`; an engine error aborts the run (uncaught exception),
recorded as `exit = none`.  Only the I/O actions and log lines relevant to
the RSA data flow are traced; the conditional line-126 match log and the
line-131 closing log are traced exactly as in the source, and the equality
check at line 126 has no else branch. -/
def mainRun (pubFile privFile : Nat × Nat)
    (message aeskey aesCt aesIv : List Nat)
    (aesDec : List Nat → List Nat → List Nat → List Nat) : MainRun :=
  let t0 : List Event :=
    [Event.log "Program started",
     Event.writeFile aesCtPath (aesIv ++ aesCt),
     Event.readFile pubKeyPath,
     Event.readFile privKeyPath]
  let vars := loadKeys pubFile privFile
  let enc := rsa_encrypt vars.k_pub vars.modulus aeskey
  let encArgs := some (vars.k_pub, vars.modulus)
  match enc.result with
  | Except.error _ => ⟨t0, none, encArgs, none, none, none⟩
  | Except.ok ct =>
    let t1 := t0 ++ [Event.writeFile rsaCtPath ct]
    let decArgs := some (vars.k_priv, vars.modulus)
    match rsa_decrypt vars.k_priv vars.modulus ct with
    | Except.error _ => ⟨t1, none, encArgs, decArgs, some ct, none⟩
    | Except.ok aeskeyRec =>
      let dec := aesDec aeskeyRec aesIv aesCt
      let matchLog : List Event :=
        if message = dec then
          [Event.log "Decrypted message matches the original plaintext.\n"]
        else []
      ⟨t1 ++ [Event.readFile aesCtPath, Event.writeFile decryptedPath dec]
         ++ matchLog ++ [Event.log "Program finished successfully."],
       some 0, encArgs, decArgs, some ct, some dec⟩

theorem mulmodAux_correct :
    ∀ (fuel a b n acc : Nat), 0 < n → b < 2 ^ fuel → a < n → acc < n →
      mulmodAux fuel a b n acc = (acc + a * b) % n := by
  intro fuel
  induction fuel with
  | zero =>
    intro a b n acc hn hb _ hacc
    have hb0 : b = 0 := Nat.lt_one_iff.mp (by simpa using hb)
    subst hb0
    simp [mulmodAux, Nat.mod_eq_of_lt hacc]
  | succ f ih =>
    intro a b n acc hn hb ha hacc
    have hb' : b / 2 < 2 ^ f := by
      have h2 : (0:Nat) < 2 := by norm_num
      rw [Nat.div_lt_iff_lt_mul h2]
      calc b < 2 ^ (f + 1) := hb
        _ = 2 ^ f * 2 := by rw [pow_succ]
    have ha' : (a + a) % n < n := Nat.mod_lt _ hn
    have hacc' : (if b % 2 = 1 then (acc + a) % n else acc) < n := by
      by_cases h : b % 2 = 1
      · simp [h, Nat.mod_lt _ hn]
      · simp [h, hacc]
    have := ih ((a + a) % n) (b / 2) n
      (if b % 2 = 1 then (acc + a) % n else acc) hn hb' ha' hacc'
    show mulmodAux (f + 1) a b n acc = (acc + a * b) % n
    by_cases hb0 : b = 0
    · subst hb0
      show (if (0:Nat) = 0 then acc
          else mulmodAux f ((a + a) % n) (0 / 2) n
            (if 0 % 2 = 1 then (acc + a) % n else acc)) = (acc + a * 0) % n
      rw [if_pos rfl, Nat.mul_zero, Nat.add_zero, Nat.mod_eq_of_lt hacc]
    · have hstep : mulmodAux (f + 1) a b n acc
          = mulmodAux f ((a + a) % n) (b / 2) n
            (if b % 2 = 1 then (acc + a) % n else acc) := by
        show (if b = 0 then acc
            else mulmodAux f ((a + a) % n) (b / 2) n
              (if b % 2 = 1 then (acc + a) % n else acc)) = _
        rw [if_neg hb0]
      rw [hstep, this]
      have hmod : (a + a) % n ≡ a + a [MOD n] := Nat.mod_modEq _ _
      have hacc2 : (if b % 2 = 1 then (acc + a) % n else acc)
          ≡ acc + a * (b % 2) [MOD n] := by
        rcases Nat.mod_two_eq_zero_or_one b with h | h
        · simp [h, Nat.ModEq.refl]
        · simp only [h, if_pos rfl, mul_one]
          exact Nat.mod_modEq _ _
      have hsum : (if b % 2 = 1 then (acc + a) % n else acc) + (a + a) % n * (b / 2)
          ≡ (acc + a * (b % 2)) + (a + a) * (b / 2) [MOD n] :=
        Nat.ModEq.add hacc2 (hmod.mul_right _)
      have harith : (acc + a * (b % 2)) + (a + a) * (b / 2) = acc + a * b := by
        have hsplit : b % 2 + 2 * (b / 2) = b := Nat.mod_add_div b 2
        calc (acc + a * (b % 2)) + (a + a) * (b / 2)
            = acc + a * (b % 2 + 2 * (b / 2)) := by ring
          _ = acc + a * b := by rw [hsplit]
      calc ((if b % 2 = 1 then (acc + a) % n else acc) + (a + a) % n * (b / 2)) % n
          = ((acc + a * (b % 2)) + (a + a) * (b / 2)) % n := hsum
        _ = (acc + a * b) % n := by rw [harith]

/-- `mulmod` agrees with arbitrary-precision multiplication followed by
reduction, for any second operand below the 64-bit bound. -/
theorem mulmod_eq (a b n : Nat) (hn : 0 < n) (hb : b < 2 ^ 64) :
    mulmod a b n = a * b % n := by
  have h := mulmodAux_correct 64 (a % n) b n 0 hn hb (Nat.mod_lt _ hn) hn
  rw [mulmod, h, zero_add]
  exact (Nat.mod_modEq a n).mul_right b

theorem powmodAux_correct :
    ∀ (fuel base e n acc : Nat), 0 < n → n ≤ 2 ^ 64 → e < 2 ^ fuel →
      base < n → acc < n →
      powmodAux fuel base e n acc = acc * base ^ e % n := by
  intro fuel
  induction fuel with
  | zero =>
    intro base e n acc hn _ he _ hacc
    have he0 : e = 0 := Nat.lt_one_iff.mp (by simpa using he)
    subst he0
    simp [powmodAux, Nat.mod_eq_of_lt hacc]
  | succ f ih =>
    intro base e n acc hn hw he hbase hacc
    have hbw : base < 2 ^ 64 := lt_of_lt_of_le hbase hw
    have haw : acc < 2 ^ 64 := lt_of_lt_of_le hacc hw
    have he' : e / 2 < 2 ^ f := by
      have h2 : (0:Nat) < 2 := by norm_num
      rw [Nat.div_lt_iff_lt_mul h2]
      calc e < 2 ^ (f + 1) := he
        _ = 2 ^ f * 2 := by rw [pow_succ]
    have hsq : mulmod base base n = base * base % n := mulmod_eq base base n hn hbw
    have hsq' : mulmod base base n < n := by rw [hsq]; exact Nat.mod_lt _ hn
    have hacc' : (if e % 2 = 1 then mulmod acc base n else acc) < n := by
      by_cases h : e % 2 = 1
      · simp only [h, if_pos rfl, mulmod_eq acc base n hn hbw]
        exact Nat.mod_lt _ hn
      · simp [h, hacc]
    have := ih (mulmod base base n) (e / 2) n
      (if e % 2 = 1 then mulmod acc base n else acc) hn hw he' hsq' hacc'
    show powmodAux (f + 1) base e n acc = acc * base ^ e % n
    by_cases he0 : e = 0
    · subst he0
      show (if (0:Nat) = 0 then acc
          else powmodAux f (mulmod base base n) (0 / 2) n
            (if 0 % 2 = 1 then mulmod acc base n else acc))
          = acc * base ^ 0 % n
      rw [if_pos rfl, pow_zero, Nat.mul_one, Nat.mod_eq_of_lt hacc]
    · have hstep : powmodAux (f + 1) base e n acc
          = powmodAux f (mulmod base base n) (e / 2) n
            (if e % 2 = 1 then mulmod acc base n else acc) := by
        show (if e = 0 then acc
            else powmodAux f (mulmod base base n) (e / 2) n
              (if e % 2 = 1 then mulmod acc base n else acc)) = _
        rw [if_neg he0]
      rw [hstep, this]
      have hmodsq : mulmod base base n ≡ base * base [MOD n] := by
        rw [hsq]; exact Nat.mod_modEq _ _
      have hacc2 : (if e % 2 = 1 then mulmod acc base n else acc)
          ≡ acc * base ^ (e % 2) [MOD n] := by
        rcases Nat.mod_two_eq_zero_or_one e with h | h
        · simp [h, Nat.ModEq.refl]
        · simp only [h, if_pos rfl, pow_one, mulmod_eq acc base n hn hbw]
          exact Nat.mod_modEq _ _
      have hprod : (if e % 2 = 1 then mulmod acc base n else acc)
            * (mulmod base base n) ^ (e / 2)
          ≡ (acc * base ^ (e % 2)) * (base * base) ^ (e / 2) [MOD n] :=
        Nat.ModEq.mul hacc2 (hmodsq.pow _)
      have harith : (acc * base ^ (e % 2)) * (base * base) ^ (e / 2)
          = acc * base ^ e := by
        have hsplit : e % 2 + 2 * (e / 2) = e := Nat.mod_add_div e 2
        calc (acc * base ^ (e % 2)) * (base * base) ^ (e / 2)
            = acc * (base ^ (e % 2) * (base ^ 2) ^ (e / 2)) := by ring
          _ = acc * (base ^ (e % 2) * base ^ (2 * (e / 2))) := by
              rw [← pow_mul]
          _ = acc * base ^ (e % 2 + 2 * (e / 2)) := by rw [← pow_add]
          _ = acc * base ^ e := by rw [hsplit]
      calc ((if e % 2 = 1 then mulmod acc base n else acc)
            * (mulmod base base n) ^ (e / 2)) % n
          = ((acc * base ^ (e % 2)) * (base * base) ^ (e / 2)) % n := hprod
        _ = acc * base ^ e % n := by rw [harith]

/-- `powmod` agrees with arbitrary-precision exponentiation followed by
reduction, for any 64-bit exponent and nonzero 64-bit modulus. -/
theorem powmod_eq (base e n : Nat) (hn : 0 < n) (hw : n ≤ 2 ^ 64)
    (he : e < 2 ^ 64) : powmod base e n = base ^ e % n := by
  have h := powmodAux_correct 64 (base % n) e n (1 % n) hn hw he
    (Nat.mod_lt _ hn) (Nat.mod_lt _ hn)
  rw [powmod, h]
  have h1 : 1 % n * (base % n) ^ e ≡ 1 * base ^ e [MOD n] :=
    Nat.ModEq.mul (Nat.mod_modEq 1 n) ((Nat.mod_modEq base n).pow e)
  calc 1 % n * (base % n) ^ e % n = 1 * base ^ e % n := h1
    _ = base ^ e % n := by rw [one_mul]

theorem bytesToNat_lt :
    ∀ (bs : List Nat), (∀ b ∈ bs, b < 256) → bytesToNat bs < 256 ^ bs.length := by
  intro bs
  induction bs with
  | nil => intro _; simp [bytesToNat]
  | cons b bs ih =>
    intro h
    have hb : b < 256 := h b (List.mem_cons_self b bs)
    have hbs := ih (fun x hx => h x (List.mem_cons_of_mem _ hx))
    show b * 256 ^ bs.length + bytesToNat bs < 256 ^ (bs.length + 1)
    calc b * 256 ^ bs.length + bytesToNat bs
        < b * 256 ^ bs.length + 256 ^ bs.length := Nat.add_lt_add_left hbs _
      _ ≤ 255 * 256 ^ bs.length + 256 ^ bs.length :=
          Nat.add_le_add_right (Nat.mul_le_mul_right _ (by omega)) _
      _ = 256 ^ (bs.length + 1) := by rw [pow_succ]; ring

theorem bytesToNat_concat (l : List Nat) (b : Nat) :
    bytesToNat (l ++ [b]) = 256 * bytesToNat l + b := by
  induction l with
  | nil => simp [bytesToNat]
  | cons x l ih =>
    show x * 256 ^ (l ++ [b]).length + bytesToNat (l ++ [b])
        = 256 * (x * 256 ^ l.length + bytesToNat l) + b
    rw [ih]
    simp only [List.length_append, List.length_singleton, pow_succ, pow_add,
      pow_one]
    ring

theorem natToBytes_bytesToNat :
    ∀ (bs : List Nat), (∀ b ∈ bs, b < 256) →
      natToBytes bs.length (bytesToNat bs) = bs := by
  intro bs
  induction bs using List.reverseRecOn with
  | nil => intro _; rfl
  | append_singleton l b ih =>
    intro h
    have hb : b < 256 := h b (by simp)
    have hl := ih (fun x hx => h x (by simp [hx]))
    rw [bytesToNat_concat]
    have hlen : (l ++ [b]).length = l.length + 1 := by simp
    rw [hlen]
    show natToBytes l.length ((256 * bytesToNat l + b) / 256)
        ++ [(256 * bytesToNat l + b) % 256] = l ++ [b]
    have hdiv : (256 * bytesToNat l + b) / 256 = bytesToNat l := by
      rw [Nat.mul_add_div (by norm_num), Nat.div_eq_of_lt hb, Nat.add_zero]
    have hmod : (256 * bytesToNat l + b) % 256 = b := by
      rw [Nat.mul_add_mod]
      exact Nat.mod_eq_of_lt hb
    rw [hdiv, hmod, hl]

theorem stripPad_replicate :
    ∀ (k : Nat) (l : List Nat),
      stripPad (List.replicate k 255 ++ 0 :: l) = some l := by
  intro k
  induction k with
  | zero => intro l; simp [stripPad]
  | succ k ih => intro l; simp [List.replicate_succ, stripPad, ih]

theorem natToBytes_zero : ∀ (cap : Nat), natToBytes cap 0 = List.replicate cap 0 := by
  intro cap
  induction cap with
  | zero => rfl
  | succ c ih =>
    show natToBytes c (0 / 256) ++ [0 % 256] = List.replicate (c + 1) 0
    simp [ih, List.replicate_succ']

theorem encode_ok_facts (payload : List Nat) (cap blk : Nat)
    (hbytes : ∀ b ∈ payload, b < 256)
    (henc : encode payload cap = Except.ok blk) :
    payload.length + 3 ≤ cap ∧ blk < 256 ^ cap := by
  unfold encode at henc
  by_cases hlen : payload.length + 3 ≤ cap
  · rw [if_pos hlen] at henc
    injection henc with hblk
    subst hblk
    refine ⟨hlen, ?_⟩
    have hall : ∀ b ∈ (0 :: 2 :: (List.replicate (cap - (payload.length + 3)) 255
        ++ 0 :: payload)), b < 256 := by
      intro b hb
      simp only [List.mem_cons, List.mem_append, List.mem_replicate] at hb
      rcases hb with rfl | rfl | ⟨_, rfl⟩ | rfl | hmem
      · omega
      · omega
      · omega
      · omega
      · exact hbytes b hmem
    have hlenbs : (0 :: 2 :: (List.replicate (cap - (payload.length + 3)) 255
        ++ 0 :: payload)).length = cap := by
      simp [List.length_replicate]
      omega
    have := bytesToNat_lt _ hall
    rw [hlenbs] at this
    exact this
  · rw [if_neg hlen] at henc
    exact absurd henc (by simp)

theorem decode_encode_eq (payload : List Nat) (cap blk : Nat)
    (hbytes : ∀ b ∈ payload, b < 256)
    (henc : encode payload cap = Except.ok blk) :
    decode cap blk = Except.ok payload := by
  have hlen := (encode_ok_facts payload cap blk hbytes henc).1
  unfold encode at henc
  rw [if_pos hlen] at henc
  injection henc with hblk
  subst hblk
  have hall : ∀ b ∈ (0 :: 2 :: (List.replicate (cap - (payload.length + 3)) 255
      ++ 0 :: payload)), b < 256 := by
    intro b hb
    simp only [List.mem_cons, List.mem_append, List.mem_replicate] at hb
    rcases hb with rfl | rfl | ⟨_, rfl⟩ | rfl | hmem
    · omega
    · omega
    · omega
    · omega
    · exact hbytes b hmem
  have hlenbs : (0 :: 2 :: (List.replicate (cap - (payload.length + 3)) 255
      ++ 0 :: payload)).length = cap := by
    simp [List.length_replicate]
    omega
  have hbs : natToBytes cap (bytesToNat (0 :: 2 ::
      (List.replicate (cap - (payload.length + 3)) 255 ++ 0 :: payload)))
      = 0 :: 2 :: (List.replicate (cap - (payload.length + 3)) 255
        ++ 0 :: payload) := by
    have h0 := natToBytes_bytesToNat _ hall
    rw [hlenbs] at h0
    exact h0
  unfold decode
  rw [hbs]
  simp [stripPad_replicate]

theorem capAux_le : ∀ (k n : Nat), 0 < capAux k n → 256 ^ capAux k n ≤ n := by
  intro k
  induction k with
  | zero => intro n h; simp [capAux] at h
  | succ k ih =>
    intro n h
    by_cases hc : 256 ^ (k + 1) ≤ n
    · simp only [capAux, if_pos hc]
      exact hc
    · simp only [capAux, if_neg hc]
      simp only [capAux, if_neg hc] at h
      exact ih n h

/-- C2: the padding codec's `encode` is injective on valid payloads and
`decode` is a left inverse of `encode`: for payloads of in-range bytes that
`encode` accepts, decoding the encoded block returns exactly the original
bytes, and distinct payloads yield distinct blocks. -/
theorem encode_decode_left_inverse_and_injective
    (cap : Nat) (p1 p2 : List Nat) (b1 b2 : Nat)
    (h1 : ∀ b ∈ p1, b < 256) (h2 : ∀ b ∈ p2, b < 256)
    (henc1 : encode p1 cap = Except.ok b1)
    (henc2 : encode p2 cap = Except.ok b2) :
    decode cap b1 = Except.ok p1 ∧ (p1 ≠ p2 → b1 ≠ b2) := by
  have hd1 := decode_encode_eq p1 cap b1 h1 henc1
  have hd2 := decode_encode_eq p2 cap b2 h2 henc2
  refine ⟨hd1, ?_⟩
  intro hne heq
  apply hne
  rw [heq] at hd1
  have := hd1.symm.trans hd2
  injection this

theorem encode_decode_left_inverse_and_injective_witness :
    decode 4 131073 = Except.ok [1] ∧ (([1] : List Nat) ≠ [2] → (131073 : Nat) ≠ 131074) :=
  encode_decode_left_inverse_and_injective 4 [1] [2] 131073 131074
    (by decide) (by decide) (by rfl) (by rfl)

/-- C3: `mulmod(a, b, n)` equals `(a * b) mod n` computed with
arbitrary-precision (`Nat`) reference arithmetic, for all `a, b < n` with
`n` fitting the 64-bit width — in particular when the full product
`a * b` exceeds 64 bits. -/
theorem mulmod_matches_reference (a b n : Nat) (ha : a < n) (hb : b < n)
    (hw : n < 2 ^ 64) : mulmod a b n = a * b % n :=
  mulmod_eq a b n (Nat.lt_of_le_of_lt (Nat.zero_le a) ha) (lt_trans hb hw)

theorem mulmod_matches_reference_witness :
    (9223372036854775808 : Nat) < 18446744073709551615 ∧
    mulmod 9223372036854775808 9223372036854775808 18446744073709551615 =
      9223372036854775808 * 9223372036854775808 % 18446744073709551615 :=
  ⟨by norm_num,
    mulmod_matches_reference 9223372036854775808 9223372036854775808
      18446744073709551615 (by norm_num) (by norm_num) (by norm_num)⟩

/-- C4: `powmod(base, exponent, n)` equals the reference definition of
modular exponentiation, `base ^ exponent mod n`, for every base, every
64-bit exponent, and every nonzero modulus in the 64-bit width. -/
theorem powmod_matches_reference (base e n : Nat) (hn : 0 < n)
    (hwn : n < 2 ^ 64) (he : e < 2 ^ 64) : powmod base e n = base ^ e % n :=
  powmod_eq base e n hn (le_of_lt hwn) he

theorem powmod_matches_reference_witness :
    (0 : Nat) < 561 ∧ powmod 7 560 561 = 7 ^ 560 % 561 :=
  ⟨by norm_num,
    powmod_matches_reference 7 560 561 (by norm_num) (by norm_num) (by norm_num)⟩

theorem stripPad_none :
    ∀ (l : List Nat), (∀ b ∈ l, b ≠ 0) → stripPad l = none := by
  intro l
  induction l with
  | nil => intro _; rfl
  | cons b rest ih =>
    intro h
    have hb : b ≠ 0 := h b (List.mem_cons_self b rest)
    show (if b = 0 then some rest else stripPad rest) = none
    rw [if_neg hb]
    exact ih (fun x hx => h x (List.mem_cons_of_mem _ hx))

/-- C5: `decode` fails with `MalformedPadding` on any block whose expected
marker/separator structure is absent — the leading `00 02` marker bytes are
missing, or the marker is present but no zero separator byte follows it —
and deterministically on the all-zero block, rather than returning any
payload bytes. -/
theorem decode_rejects_malformed (cap block : Nat)
    (h : (natToBytes cap block).take 2 ≠ [0, 2] ∨
        ∀ b ∈ (natToBytes cap block).drop 2, b ≠ 0) :
    decode cap block = Except.error RSAError.MalformedPadding ∧
    decode cap 0 = Except.error RSAError.MalformedPadding := by
  constructor
  · unfold decode
    cases hbs : natToBytes cap block with
    | nil => rfl
    | cons b0 t =>
      cases t with
      | nil => rfl
      | cons b1 rest =>
        rw [hbs] at h
        by_cases hm : b0 = 0 ∧ b1 = 2
        · rcases h with h | h
          · have htake : (b0 :: b1 :: rest).take 2 = [0, 2] := by
              simp [List.take, hm.1, hm.2]
            exact absurd htake h
          · have hrest : ∀ b ∈ rest, b ≠ 0 := by simpa using h
            have hstrip : stripPad rest = none := stripPad_none rest hrest
            simp [hm, hstrip]
        · simp [hm]
  · unfold decode
    rw [natToBytes_zero cap]
    match cap with
    | 0 => rfl
    | 1 => rfl
    | c + 2 =>
      simp only [List.replicate_succ]
      rw [if_neg (by omega)]

theorem decode_rejects_malformed_witness :
    (decode 4 0 = Except.error RSAError.MalformedPadding ∧
     decode 4 0 = Except.error RSAError.MalformedPadding) ∧
    (decode 4 196607 = Except.error RSAError.MalformedPadding ∧
     decode 4 0 = Except.error RSAError.MalformedPadding) :=
  ⟨decode_rejects_malformed 4 0 (Or.inl (by decide)),
   decode_rejects_malformed 4 196607 (Or.inr (by decide))⟩

/-- C7: when the payload plus the three bytes of padding overhead exceed the
modulus's block capacity, `rsa_encrypt` fails with `PayloadTooLarge`, performs
zero modular exponentiations, and writes no ciphertext file. -/
theorem encrypt_oversized_fails_before_powmod (e n : Nat) (payload : List Nat)
    (h : modCapacity n < payload.length + 3) :
    rsa_encrypt e n payload =
      ⟨Except.error RSAError.PayloadTooLarge, 0, none⟩ := by
  unfold rsa_encrypt encode
  rw [if_neg (by omega)]

theorem encrypt_oversized_fails_before_powmod_witness :
    rsa_encrypt 17 3233 (List.replicate 16 65) =
      ⟨Except.error RSAError.PayloadTooLarge, 0, none⟩ :=
  encrypt_oversized_fails_before_powmod 17 3233 (List.replicate 16 65) (by decide)

theorem prime_pow_identity (p m t : Nat) (hp : p.Prime) (hdvd : (p - 1) ∣ t) :
    m ^ (t + 1) ≡ m [MOD p] := by
  by_cases h : p ∣ m
  · have h1 : m ≡ 0 [MOD p] := Nat.modEq_zero_iff_dvd.mpr h
    have h2 : m ^ (t + 1) ≡ 0 [MOD p] :=
      Nat.modEq_zero_iff_dvd.mpr (dvd_pow h (Nat.succ_ne_zero t))
    exact h2.trans h1.symm
  · have hco : Nat.Coprime m p :=
      ((Nat.Prime.coprime_iff_not_dvd hp).mpr h).symm
    have heuler : m ^ Nat.totient p ≡ 1 [MOD p] := Nat.ModEq.pow_totient hco
    rw [Nat.totient_prime hp] at heuler
    obtain ⟨c, hc⟩ := hdvd
    have hpow : m ^ (t + 1) = (m ^ (p - 1)) ^ c * m := by
      rw [hc, pow_add, pow_mul, pow_one]
    rw [hpow]
    calc (m ^ (p - 1)) ^ c * m ≡ 1 ^ c * m [MOD p] := (heuler.pow c).mul_right m
      _ = m := by rw [one_pow, one_mul]

theorem rsa_identity (p q e d m : Nat) (hp : p.Prime) (hq : q.Prime)
    (hne : p ≠ q) (hinv : e * d ≡ 1 [MOD (p - 1) * (q - 1)])
    (hm : m < p * q) : m ^ (e * d) % (p * q) = m := by
  have hp2 := hp.two_le
  have hq2 := hq.two_le
  have hphi : 2 ≤ (p - 1) * (q - 1) := by
    rcases Nat.lt_or_ge p 3 with hp3 | hp3
    · have hpe : p = 2 := by omega
      have hqne : q ≠ 2 := fun hh => hne (hpe.trans hh.symm)
      have hq3 : 3 ≤ q := by omega
      calc 2 = 1 * 2 := by norm_num
        _ ≤ (p - 1) * (q - 1) := Nat.mul_le_mul (by omega) (by omega)
    · calc 2 = 2 * 1 := by norm_num
        _ ≤ (p - 1) * (q - 1) := Nat.mul_le_mul (by omega) (by omega)
  have hed : e * d % ((p - 1) * (q - 1)) = 1 := by
    have h0 : e * d % ((p - 1) * (q - 1)) = 1 % ((p - 1) * (q - 1)) := hinv
    rw [h0, Nat.mod_eq_of_lt (by omega)]
  have hsplit : e * d
      = (p - 1) * (q - 1) * (e * d / ((p - 1) * (q - 1))) + 1 := by
    have h0 := Nat.div_add_mod (e * d) ((p - 1) * (q - 1))
    rw [hed] at h0
    omega
  set t := (p - 1) * (q - 1) * (e * d / ((p - 1) * (q - 1))) with ht
  have hdp : (p - 1) ∣ t :=
    ⟨(q - 1) * (e * d / ((p - 1) * (q - 1))), by rw [ht]; ring⟩
  have hdq : (q - 1) ∣ t :=
    ⟨(p - 1) * (e * d / ((p - 1) * (q - 1))), by rw [ht]; ring⟩
  have hP := prime_pow_identity p m t hp hdp
  have hQ := prime_pow_identity q m t hq hdq
  have hco : Nat.Coprime p q := (Nat.coprime_primes hp hq).mpr hne
  have hPQ : m ^ (t + 1) ≡ m [MOD p * q] :=
    (Nat.modEq_and_modEq_iff_modEq_mul hco).mp ⟨hP, hQ⟩
  rw [hsplit]
  have hfin : m ^ (t + 1) % (p * q) = m % (p * q) := hPQ
  rw [hfin, Nat.mod_eq_of_lt hm]

theorem rsa_round_trip_aux (p q e d : Nat) (payload ct : List Nat)
    (hp : Nat.Prime p) (hq : Nat.Prime q) (hne : p ≠ q)
    (he : e < 2 ^ 64) (hd : d < 2 ^ 64) (hn : p * q < 2 ^ 64)
    (hinv : e * d ≡ 1 [MOD (p - 1) * (q - 1)])
    (hbytes : ∀ b ∈ payload, b < 256)
    (henc : (rsa_encrypt e (p * q) payload).result = Except.ok ct) :
    rsa_decrypt d (p * q) ct = Except.ok payload := by
  have hnpos : 0 < p * q := Nat.mul_pos hp.pos hq.pos
  by_cases hlen : payload.length + 3 ≤ modCapacity (p * q)
  · have hE : encode payload (modCapacity (p * q)) = Except.ok (bytesToNat
        (0 :: 2 :: (List.replicate (modCapacity (p * q) - (payload.length + 3)) 255
          ++ 0 :: payload))) := by
      unfold encode
      rw [if_pos hlen]
    set blk := bytesToNat
      (0 :: 2 :: (List.replicate (modCapacity (p * q) - (payload.length + 3)) 255
        ++ 0 :: payload)) with hblkdef
    have hblk_lt : blk < p * q := by
      have hfacts := encode_ok_facts payload (modCapacity (p * q)) blk hbytes hE
      have hcappos : 0 < modCapacity (p * q) := by omega
      exact lt_of_lt_of_le hfacts.2 (capAux_le 8 (p * q) hcappos)
    simp only [rsa_encrypt, hE] at henc
    have hct : ct = [powmod blk e (p * q)] := by
      have := henc
      injection this with h0
      exact h0.symm
    subst hct
    have hcd : powmod (powmod blk e (p * q)) d (p * q) = blk := by
      rw [powmod_eq blk e (p * q) hnpos (le_of_lt hn) he,
        powmod_eq _ d (p * q) hnpos (le_of_lt hn) hd]
      have h1 : (blk ^ e % (p * q)) ^ d ≡ (blk ^ e) ^ d [MOD p * q] :=
        (Nat.mod_modEq _ _).pow d
      have h2 : ((blk ^ e % (p * q)) ^ d) % (p * q)
          = ((blk ^ e) ^ d) % (p * q) := h1
      rw [h2, ← pow_mul]
      exact rsa_identity p q e d blk hp hq hne hinv hblk_lt
    have hdec : decode (modCapacity (p * q)) (powmod (powmod blk e (p * q)) d (p * q))
        = Except.ok payload := by
      rw [hcd]
      exact decode_encode_eq payload _ blk hbytes hE
    simp [rsa_decrypt, hdec]
  · have hE : encode payload (modCapacity (p * q))
        = Except.error RSAError.PayloadTooLarge := by
      unfold encode
      rw [if_neg hlen]
    simp [rsa_encrypt, hE] at henc

/-- C1: for every payload of in-range bytes that the modulus can carry and
every key pair `(e, d, n)` satisfying the §3 invariant — `n = p * q` a
product of two distinct primes and `d` the modular inverse of `e` with
respect to the totient `(p - 1) * (q - 1)` — decrypting the ciphertext
produced by `rsa_encrypt` with the private key returns exactly the original
payload. -/
theorem rsa_round_trip (p q e d : Nat) (payload ct : List Nat)
    (hp : Nat.Prime p) (hq : Nat.Prime q) (hne : p ≠ q)
    (he : e < 2 ^ 64) (hd : d < 2 ^ 64) (hn : p * q < 2 ^ 64)
    (hinv : e * d ≡ 1 [MOD (p - 1) * (q - 1)])
    (hbytes : ∀ b ∈ payload, b < 256)
    (henc : (rsa_encrypt e (p * q) payload).result = Except.ok ct) :
    rsa_decrypt d (p * q) ct = Except.ok payload :=
  rsa_round_trip_aux p q e d payload ct hp hq hne he hd hn hinv hbytes henc

theorem rsa_round_trip_witness :
    rsa_decrypt 2577059021 (65537 * 65539)
      ((rsa_encrypt 5 (65537 * 65539) [65]).result.toOption.getD [])
      = Except.ok [65] :=
  rsa_round_trip 65537 65539 5 2577059021 [65]
    ((rsa_encrypt 5 (65537 * 65539) [65]).result.toOption.getD [])
    (by norm_num) (by norm_num) (by norm_num) (by norm_num) (by norm_num)
    (by norm_num) (by decide) (by decide) (by rfl)

theorem decDigitsAux_lt10 :
    ∀ (fuel m : Nat), ∀ d ∈ decDigitsAux fuel m, d < 10 := by
  intro fuel
  induction fuel with
  | zero => intro m d hd; simp [decDigitsAux] at hd
  | succ f ih =>
    intro m d hd
    by_cases hm : m = 0
    · simp [decDigitsAux, hm] at hd
    · simp only [decDigitsAux, if_neg hm, List.mem_cons] at hd
      rcases hd with rfl | hd
      · exact Nat.mod_lt _ (by norm_num)
      · exact ih (m / 10) d hd

theorem ofDigitsLE_decDigitsAux :
    ∀ (fuel m : Nat), m < 10 ^ fuel → ofDigitsLE (decDigitsAux fuel m) = m := by
  intro fuel
  induction fuel with
  | zero =>
    intro m hm
    have hm0 : m = 0 := Nat.lt_one_iff.mp (by simpa using hm)
    subst hm0
    rfl
  | succ f ih =>
    intro m hm
    by_cases hm0 : m = 0
    · subst hm0; rfl
    · have hdiv : m / 10 < 10 ^ f := by
        have h10 : (0:Nat) < 10 := by norm_num
        rw [Nat.div_lt_iff_lt_mul h10]
        calc m < 10 ^ (f + 1) := hm
          _ = 10 ^ f * 10 := by rw [pow_succ]
      simp only [decDigitsAux, if_neg hm0]
      show m % 10 + 10 * ofDigitsLE (decDigitsAux f (m / 10)) = m
      rw [ih (m / 10) hdiv, Nat.mod_add_div]

theorem decDigitsAux_ne_nil (fuel m : Nat) (hm : m ≠ 0) :
    decDigitsAux (fuel + 1) m ≠ [] := by
  simp [decDigitsAux, hm]

theorem parseDigit_digitChar : ∀ d, d < 10 → parseDigit (digitChar d) = some d := by
  decide

theorem digitChar_ne_newline : ∀ d, d < 10 → digitChar d ≠ '\n' := by
  decide

theorem natToChars_ne_newline (m : Nat) : ∀ c ∈ natToChars m, c ≠ '\n' := by
  intro c hc
  unfold natToChars at hc
  by_cases hm : m = 0
  · rw [if_pos hm] at hc
    simp at hc
    subst hc
    decide
  · rw [if_neg hm] at hc
    simp only [List.mem_map, List.mem_reverse] at hc
    obtain ⟨d, hd, rfl⟩ := hc
    exact digitChar_ne_newline d (decDigitsAux_lt10 64 m d hd)

theorem parseNatAux_map :
    ∀ (ds : List Nat) (acc : Nat), (∀ d ∈ ds, d < 10) →
      parseNatAux (ds.map digitChar) acc
        = some (ds.foldl (fun a d => 10 * a + d) acc) := by
  intro ds
  induction ds with
  | nil => intro acc _; rfl
  | cons d ds ih =>
    intro acc h
    have hd : d < 10 := h d (List.mem_cons_self d ds)
    show parseNatAux (digitChar d :: ds.map digitChar) acc = _
    simp only [parseNatAux, parseDigit_digitChar d hd]
    exact ih (10 * acc + d) (fun x hx => h x (List.mem_cons_of_mem _ hx))

theorem foldl_digits_eq_ofDigitsLE :
    ∀ (ds : List Nat),
      (ds.reverse).foldl (fun a d => 10 * a + d) 0 = ofDigitsLE ds := by
  intro ds
  rw [List.foldl_reverse]
  induction ds with
  | nil => rfl
  | cons d ds ih =>
    show 10 * ds.foldr (fun d a => 10 * a + d) 0 + d = d + 10 * ofDigitsLE ds
    rw [ih, Nat.add_comm]

theorem parse_natToChars (m : Nat) (hm : m < 10 ^ 64) :
    parseNatChars (natToChars m) = some m := by
  by_cases hm0 : m = 0
  · subst hm0; rfl
  · have hne : natToChars m ≠ [] := by
      unfold natToChars
      rw [if_neg hm0]
      intro hcontra
      have := decDigitsAux_ne_nil 63 m hm0
      simp at hcontra
      exact this hcontra
    unfold parseNatChars
    rw [if_neg (by simpa [List.isEmpty_iff] using hne)]
    unfold natToChars
    rw [if_neg hm0]
    have hd10 : ∀ d ∈ (decDigitsAux 64 m).reverse, d < 10 := by
      intro d hd
      exact decDigitsAux_lt10 64 m d (List.mem_reverse.mp hd)
    rw [parseNatAux_map _ 0 hd10, foldl_digits_eq_ofDigitsLE,
      ofDigitsLE_decDigitsAux 64 m hm]

theorem splitNl_append :
    ∀ (l1 rest : List Char), (∀ c ∈ l1, c ≠ '\n') →
      splitNl (l1 ++ '\n' :: rest) = some (l1, rest) := by
  intro l1
  induction l1 with
  | nil => intro rest _; simp [splitNl]
  | cons c cs ih =>
    intro rest h
    have hc : c ≠ '\n' := h c (List.mem_cons_self c cs)
    show splitNl (c :: (cs ++ '\n' :: rest)) = some (c :: cs, rest)
    simp only [splitNl, if_neg hc, ih rest (fun x hx => h x (List.mem_cons_of_mem _ hx))]

/-- C6: the key-file persistence encoding round-trips exactly — for every
pair of 64-bit integers `(n, e)`, including the edge values `0`, `1` and the
maximum representable value, parsing the text written by `writeKeyContent`
returns exactly `(n, e)`. -/
theorem readKey_writeKey_roundtrip (n e : Nat) (hn : n < 2 ^ 64)
    (he : e < 2 ^ 64) :
    readKeyContent (writeKeyContent n e) = Except.ok (n, e) := by
  have h10n : n < 10 ^ 64 := lt_of_lt_of_le hn (by norm_num)
  have h10e : e < 10 ^ 64 := lt_of_lt_of_le he (by norm_num)
  have h1 : splitNl (writeKeyContent n e)
      = some (natToChars n, natToChars e ++ ['\n']) := by
    unfold writeKeyContent
    exact splitNl_append _ _ (natToChars_ne_newline n)
  have h2 : splitNl (natToChars e ++ ['\n']) = some (natToChars e, []) :=
    splitNl_append (natToChars e) [] (natToChars_ne_newline e)
  have hp1 := parse_natToChars n h10n
  have hp2 := parse_natToChars e h10e
  simp only [readKeyContent, h1, h2, hp1, hp2, List.isEmpty_nil, if_true]

theorem readKey_writeKey_roundtrip_witness :
    readKeyContent (writeKeyContent 0 1) = Except.ok (0, 1) ∧
    readKeyContent (writeKeyContent 1 18446744073709551615)
      = Except.ok (1, 18446744073709551615) ∧
    readKeyContent (writeKeyContent 18446744073709551615 0)
      = Except.ok (18446744073709551615, 0) :=
  ⟨readKey_writeKey_roundtrip 0 1 (by norm_num) (by norm_num),
   readKey_writeKey_roundtrip 1 18446744073709551615 (by norm_num) (by norm_num),
   readKey_writeKey_roundtrip 18446744073709551615 0 (by norm_num) (by norm_num)⟩

/-- C9: in `main` the modulus variable is filled from the public-key file
and then overwritten from the private-key file before any cryptographic
call, so `rsa_encrypt` is invoked with `(k_pub, privFile modulus)` and
`rsa_decrypt` (when reached) with `(k_priv, privFile modulus)`; when the two
key files carry different modulus values, the public-key file's modulus is
never used in any engine call. -/
theorem main_modulus_from_private_key (pubFile privFile : Nat × Nat)
    (message aeskey aesCt aesIv : List Nat)
    (aesDec : List Nat → List Nat → List Nat → List Nat)
    (hne : pubFile.fst ≠ privFile.fst) :
    (mainRun pubFile privFile message aeskey aesCt aesIv aesDec).encArgs
        = some (pubFile.snd, privFile.fst) ∧
    ((mainRun pubFile privFile message aeskey aesCt aesIv aesDec).decArgs = none ∨
      (mainRun pubFile privFile message aeskey aesCt aesIv aesDec).decArgs
        = some (privFile.snd, privFile.fst)) ∧
    pubFile.fst ∉
      (mainRun pubFile privFile message aeskey aesCt aesIv aesDec).callModuli := by
  simp only [mainRun, loadKeys]
  cases hres : (rsa_encrypt pubFile.snd privFile.fst aeskey).result with
  | error err => simp [MainRun.callModuli, hne]
  | ok ct =>
    cases hdec : rsa_decrypt privFile.snd privFile.fst ct with
    | error err => simp [hdec, MainRun.callModuli, hne]
    | ok aeskeyRec => simp [hdec, MainRun.callModuli, hne]

theorem main_modulus_from_private_key_witness :
    (mainRun (11, 3) (4295229443, 2577059021) [2] [65] [] []
      (fun _ _ _ => [1])).encArgs = some (3, 4295229443) ∧
    ((mainRun (11, 3) (4295229443, 2577059021) [2] [65] [] []
      (fun _ _ _ => [1])).decArgs = none ∨
      (mainRun (11, 3) (4295229443, 2577059021) [2] [65] [] []
        (fun _ _ _ => [1])).decArgs = some (2577059021, 4295229443)) ∧
    (11 : Nat) ∉ (mainRun (11, 3) (4295229443, 2577059021) [2] [65] [] []
      (fun _ _ _ => [1])).callModuli :=
  main_modulus_from_private_key (11, 3) (4295229443, 2577059021) [2] [65] [] []
    (fun _ _ _ => [1]) (by norm_num)

set_option maxRecDepth 4000 in
/-- C8 counterexample: at these concrete inputs the run's trace contains no
`readFile` of `ciphertext/key_enc.bin` at all, so the claim that the
decryption phase deserializes the persisted ciphertext file and decrypts
what it read back is false of the code: `main` hands `rsa_decrypt` the
in-memory vector instead. -/
theorem main_no_ciphertext_readback_counterexample :
    Event.readFile rsaCtPath ∉
      (mainRun (4295229443, 5) (4295229443, 2577059021) [2] [65] [] []
        (fun _ _ _ => [1])).trace := by
  have hres : (rsa_encrypt 5 4295229443 [65]).result
      = Except.ok [1651673226] := by rfl
  have hdec : rsa_decrypt 2577059021 4295229443 [1651673226]
      = Except.ok [65] := by
    have h0 := rsa_round_trip_aux 65537 65539 5 2577059021 [65] [1651673226]
      (by norm_num) (by norm_num) (by norm_num) (by norm_num) (by norm_num)
      (by norm_num) (by decide) (by decide) (by rfl)
    norm_num at h0
    exact h0
  simp [mainRun, loadKeys, hres, hdec, rsaCtPath, aesCtPath, pubKeyPath,
    privKeyPath, decryptedPath]

/-- C8 (amended): whatever ciphertext sequence `main` hands to RSA
decryption is the in-memory vector produced by `rsa_encrypt`, which is
exactly the sequence persisted to `ciphertext/key_enc.bin` during the
encryption phase — but the ciphertext file itself is never read back. -/
theorem main_decrypt_input_is_in_memory (pubFile privFile : Nat × Nat)
    (message aeskey aesCt aesIv : List Nat)
    (aesDec : List Nat → List Nat → List Nat → List Nat) (ct : List Nat)
    (h : (mainRun pubFile privFile message aeskey aesCt aesIv
        aesDec).rsaDecryptInput = some ct) :
    Event.writeFile rsaCtPath ct
        ∈ (mainRun pubFile privFile message aeskey aesCt aesIv aesDec).trace ∧
    Event.readFile rsaCtPath
        ∉ (mainRun pubFile privFile message aeskey aesCt aesIv aesDec).trace := by
  cases hres : (rsa_encrypt pubFile.snd privFile.fst aeskey).result with
  | error err => simp [mainRun, loadKeys, hres] at h
  | ok ct2 =>
    cases hdec : rsa_decrypt privFile.snd privFile.fst ct2 with
    | error err =>
      simp only [mainRun, loadKeys, hres, hdec] at h ⊢
      have hct : ct2 = ct := by simpa using h
      subst hct
      constructor
      · simp
      · simp [rsaCtPath, aesCtPath, pubKeyPath, privKeyPath]
    | ok aeskeyRec =>
      simp only [mainRun, loadKeys, hres, hdec] at h ⊢
      have hct : ct2 = ct := by simpa using h
      subst hct
      by_cases hmsg : message = aesDec aeskeyRec aesIv aesCt
      · constructor
        · simp
        · simp [hmsg, rsaCtPath, aesCtPath, pubKeyPath, privKeyPath, decryptedPath]
      · constructor
        · simp
        · simp [hmsg, rsaCtPath, aesCtPath, pubKeyPath, privKeyPath, decryptedPath]

set_option maxRecDepth 4000 in
theorem main_decrypt_input_is_in_memory_witness :
    Event.writeFile rsaCtPath
      ((mainRun (4295229443, 5) (4295229443, 2577059021) [2] [65] [] []
        (fun _ _ _ => [1])).rsaDecryptInput.getD [])
      ∈ (mainRun (4295229443, 5) (4295229443, 2577059021) [2] [65] [] []
        (fun _ _ _ => [1])).trace ∧
    Event.readFile rsaCtPath
      ∉ (mainRun (4295229443, 5) (4295229443, 2577059021) [2] [65] [] []
        (fun _ _ _ => [1])).trace :=
  main_decrypt_input_is_in_memory (4295229443, 5) (4295229443, 2577059021)
    [2] [65] [] [] (fun _ _ _ => [1])
    ((mainRun (4295229443, 5) (4295229443, 2577059021) [2] [65] [] []
      (fun _ _ _ => [1])).rsaDecryptInput.getD [])
    (by
      have hres : (rsa_encrypt 5 4295229443 [65]).result
          = Except.ok [1651673226] := by rfl
      have hdec : rsa_decrypt 2577059021 4295229443 [1651673226]
          = Except.ok [65] := by
        have h0 := rsa_round_trip_aux 65537 65539 5 2577059021 [65] [1651673226]
          (by norm_num) (by norm_num) (by norm_num) (by norm_num) (by norm_num)
          (by norm_num) (by decide) (by decide) (by rfl)
        norm_num at h0
        exact h0
      simp [mainRun, loadKeys, hres, hdec])

/-- C10: when the final decrypted string differs from the original
plaintext, `main` still writes the decrypted output to `test/decrypted.txt`,
never emits the line-126 match log (the equality check has no else branch,
so no mismatch is reported either), logs "Program finished successfully."
and returns exit status 0. -/
theorem main_silent_mismatch (pubFile privFile : Nat × Nat)
    (message aeskey aesCt aesIv : List Nat)
    (aesDec : List Nat → List Nat → List Nat → List Nat) (out : List Nat)
    (hout : (mainRun pubFile privFile message aeskey aesCt aesIv
        aesDec).decryptedOut = some out)
    (hne : out ≠ message) :
    Event.writeFile decryptedPath out
        ∈ (mainRun pubFile privFile message aeskey aesCt aesIv aesDec).trace ∧
    Event.log "Program finished successfully."
        ∈ (mainRun pubFile privFile message aeskey aesCt aesIv aesDec).trace ∧
    (mainRun pubFile privFile message aeskey aesCt aesIv aesDec).exit = some 0 ∧
    Event.log "Decrypted message matches the original plaintext.\n"
        ∉ (mainRun pubFile privFile message aeskey aesCt aesIv aesDec).trace := by
  cases hres : (rsa_encrypt pubFile.snd privFile.fst aeskey).result with
  | error err => simp [mainRun, loadKeys, hres] at hout
  | ok ct2 =>
    cases hdec : rsa_decrypt privFile.snd privFile.fst ct2 with
    | error err => simp [mainRun, loadKeys, hres, hdec] at hout
    | ok aeskeyRec =>
      simp only [mainRun, loadKeys, hres, hdec] at hout ⊢
      have hout' : aesDec aeskeyRec aesIv aesCt = out := by simpa using hout
      subst hout'
      have hmsg : ¬ (message = aesDec aeskeyRec aesIv aesCt) :=
        fun hh => hne hh.symm
      refine ⟨?_, ?_, ?_, ?_⟩
      · simp
      · simp [hmsg]
      · simp
      · simp [hmsg, aesCtPath, pubKeyPath, privKeyPath, rsaCtPath, decryptedPath]

set_option maxRecDepth 4000 in
theorem main_silent_mismatch_witness :
    Event.writeFile decryptedPath [1]
        ∈ (mainRun (4295229443, 5) (4295229443, 2577059021) [2] [65] [] []
          (fun _ _ _ => [1])).trace ∧
    Event.log "Program finished successfully."
        ∈ (mainRun (4295229443, 5) (4295229443, 2577059021) [2] [65] [] []
          (fun _ _ _ => [1])).trace ∧
    (mainRun (4295229443, 5) (4295229443, 2577059021) [2] [65] [] []
      (fun _ _ _ => [1])).exit = some 0 ∧
    Event.log "Decrypted message matches the original plaintext.\n"
        ∉ (mainRun (4295229443, 5) (4295229443, 2577059021) [2] [65] [] []
          (fun _ _ _ => [1])).trace :=
  main_silent_mismatch (4295229443, 5) (4295229443, 2577059021) [2] [65] [] []
    (fun _ _ _ => [1]) [1]
    (by
      have hres : (rsa_encrypt 5 4295229443 [65]).result
          = Except.ok [1651673226] := by rfl
      have hdec : rsa_decrypt 2577059021 4295229443 [1651673226]
          = Except.ok [65] := by
        have h0 := rsa_round_trip_aux 65537 65539 5 2577059021 [65] [1651673226]
          (by norm_num) (by norm_num) (by norm_num) (by norm_num) (by norm_num)
          (by norm_num) (by decide) (by decide) (by rfl)
        norm_num at h0
        exact h0
      simp [mainRun, loadKeys, hres, hdec])
    (by decide)
